import Mathlib

/-!
Verification development for the transmute streaming XML-to-object parser.

The definitions below are a shallow embedding of

  * `src/transmute/Parsing/Parser.py`  (the streaming parse engine), and
  * `src/transmute/plugins/base.py`    (the base element vocabulary)

into Lean.  Stateful Python code is rendered as explicit state passing,
`raise` becomes `Except`, the pulldom event stream becomes a `List Event`,
and Python dictionaries become ordered association lists.
-/

namespace Transmute

/-- The errors raised by the parser and the plugins.
`parseError` models `ParseError`, `validationError` models `ValidationError`
(both from `transmute/Parsing/Parser.py`), `keyErr` models a Python
`KeyError` escaping a callback, and `indexErr` models `IndexError`. -/
inductive PErr where
  | parseError (msg : String)
  | validationError (msg : String)
  | keyErr (msg : String)
  | indexErr
deriving DecidableEq, Repr

/-- The pulldom events consumed by `Parser._parse_evt_stream`:
`START_ELEMENT`, `END_ELEMENT`, `CHARACTERS`, `START_DOCUMENT`,
`END_DOCUMENT`.  Attributes are the name-to-value mapping the engine
builds from `node.attributes`. -/
inductive Event where
  | startElement (tag : String) (attrs : List (String × String))
  | endElement (tag : String)
  | characters (text : String)
  | startDocument
  | endDocument
deriving DecidableEq, Repr

/-- The builder interface the engine drives, abstracting a registered set of
`Parsable` classes (`transmute/Parsing/Parsable.py`) over a type `N` of
element states.

* `lookup t` models `t in self.__parsables` (registry membership);
* `startOp t attrs rest` models `self.__parsables[t]().Start(attrs, evt_stream, node, self)`:
  it returns the freshly started element state, the boolean returned by
  `Start` (true when the element performed its own sub-parsing), and the
  number of events `Start` consumed from the stream (`expandNode` removes
  the element's descendant markup from the underlying stream);
* `endOp` models `element.End()` (the element may be mutated);
* `childOp p c` models `p.Child(c)` returning the mutated parent;
* `cdataOp` models `element.Cdata(text)`. -/
structure Vocab (N : Type) where
  lookup : String → Bool
  startOp : String → List (String × String) → List Event → Except PErr (N × Bool × Nat)
  endOp : N → Except PErr N
  childOp : N → N → Except PErr N
  cdataOp : N → String → N

/-- `Parser._parse_evt_stream` (Parser.py lines 110-150), as a function from
the remaining event list and the stack (head = top, matching the
`UserList`-based `Stack` with `push`/`pop`/`peek` at the end) to the list
of yielded top-level elements together with the error, if any, that
terminated the generator.

Faithfulness notes, keyed to the source:
* a `START_ELEMENT`/`END_ELEMENT` whose tag is the synthetic `"_"` falls
  through to the logging-only `else` branch (lines 113, 129, 146-150);
* the `try`/`except KeyError` at lines 115-128 covers the registry lookup,
  `Start`, and the replicated end-element block, turning a `KeyError`
  into `ParseError("Invalid element: ...")`;
* inside both end-element blocks, `dom.peek().Child(element)` sits in a
  `try`/`except IndexError` whose handler yields the element
  (lines 122-125 and 133-136);
* `dom.pop()` on an empty stack raises an uncaught `IndexError`
  (line 131);
* `CHARACTERS` with an empty stack is ignored (lines 137-141). -/
def parse_evt_stream (V : Vocab N) : List Event → List N → List N × Option PErr
  | [], _ => ([], none)
  | evt :: rest, stack =>
    match evt with
    | .startElement t attrs =>
      if t = "_" then parse_evt_stream V rest stack
      else
        if V.lookup t then
          match V.startOp t attrs rest with
          | .error (.keyErr m) => ([], some (.parseError ("Invalid element: " ++ m)))
          | .error e => ([], some e)
          | .ok (n, flag, k) =>
            if flag then
              -- replicated end-element code (lines 118-125), inside the
              -- KeyError-to-ParseError block
              match V.endOp n with
              | .error (.keyErr m) => ([], some (.parseError ("Invalid element: " ++ m)))
              | .error e => ([], some e)
              | .ok n' =>
                match stack with
                | [] =>
                  let r := parse_evt_stream V (rest.drop k) []
                  (n' :: r.1, r.2)
                | p :: ps =>
                  match V.childOp p n' with
                  | .error .indexErr =>
                    let r := parse_evt_stream V (rest.drop k) (p :: ps)
                    (n' :: r.1, r.2)
                  | .error (.keyErr m) => ([], some (.parseError ("Invalid element: " ++ m)))
                  | .error e => ([], some e)
                  | .ok p' => parse_evt_stream V (rest.drop k) (p' :: ps)
            else parse_evt_stream V (rest.drop k) (n :: stack)
        else ([], some (.parseError ("Invalid element: " ++ t)))
    | .endElement t =>
      if t = "_" then parse_evt_stream V rest stack
      else
        match stack with
        | [] => ([], some .indexErr)
        | top :: s =>
          match V.endOp top with
          | .error e => ([], some e)
          | .ok n' =>
            match s with
            | [] =>
              let r := parse_evt_stream V rest []
              (n' :: r.1, r.2)
            | p :: ps =>
              match V.childOp p n' with
              | .error .indexErr =>
                let r := parse_evt_stream V rest (p :: ps)
                (n' :: r.1, r.2)
              | .error e => ([], some e)
              | .ok p' => parse_evt_stream V rest (p' :: ps)
    | .characters txt =>
      match stack with
      | [] => parse_evt_stream V rest []
      | top :: s => parse_evt_stream V rest (V.cdataOp top txt :: s)
    | .startDocument => parse_evt_stream V rest stack
    | .endDocument => parse_evt_stream V rest stack
termination_by evts _ => evts.length
decreasing_by
  all_goals simp [List.length_drop]
  all_goals omega

/-- A miniature vocabulary over natural-number states: every tag named
`"a"` or `"outer"` is registered, `Start` never sub-parses, `End` adds 10,
`Child` adds the child into the parent.  Used to run the engine theorems
on concrete inputs. -/
def natVocab : Vocab Nat where
  lookup t := t = "a" || t = "outer"
  startOp _ _ _ := .ok (1, false, 0)
  endOp n := .ok (n + 10)
  childOp p c := .ok (p + c)
  cdataOp n _ := n

/-- A miniature vocabulary whose single tag `"m"` performs sub-parsing:
its `Start` returns `true` having consumed no further events. -/
def subVocab : Vocab Nat where
  lookup t := t = "m"
  startOp _ _ _ := .ok (7, true, 0)
  endOp n := .ok (n + 1)
  childOp p c := .ok (p * 100 + c)
  cdataOp n _ := n

/-- C1: on an `EndElement` event for a registered non-synthetic tag the
engine pops the stack top, invokes `End` on it, and then either (stack now
empty) yields the popped node as a completed top-level result, or (stack
non-empty) invokes `Child` on the new stack top with the popped node. -/
theorem endElement_pops_ends_childs_or_yields {N : Type} (V : Vocab N) (t : String)
    (ht : t ≠ "_") (_hreg : V.lookup t = true)
    (top n' : N) (s : List N) (rest : List Event)
    (hEnd : V.endOp top = .ok n') :
    (s = [] →
      parse_evt_stream V (Event.endElement t :: rest) (top :: s) =
        (n' :: (parse_evt_stream V rest []).1, (parse_evt_stream V rest []).2)) ∧
    (∀ p ps, s = p :: ps → ∀ p', V.childOp p n' = .ok p' →
      parse_evt_stream V (Event.endElement t :: rest) (top :: s) =
        parse_evt_stream V rest (p' :: ps)) := by
  constructor
  · rintro rfl
    simp [parse_evt_stream, ht, hEnd]
  · rintro p ps rfl p' hChild
    simp [parse_evt_stream, ht, hEnd, hChild]

/-- Concrete run of the C1 theorem: closing tag `"a"` over the stack `[5]`
yields the ended node `15`; over the stack `[5, 2]` the ended node is fed
to `Child` of the node below. -/
theorem endElement_pops_ends_childs_or_yields_witness :
    parse_evt_stream natVocab [Event.endElement "a"] [5] = ([15], none) ∧
    parse_evt_stream natVocab [Event.endElement "a"] [5, 2] = ([], none) := by
  constructor
  · have h := (endElement_pops_ends_childs_or_yields natVocab "a" (by decide) rfl
      5 15 [] [] rfl).1 rfl
    rw [h]; simp [parse_evt_stream]
  · have h := (endElement_pops_ends_childs_or_yields natVocab "a" (by decide) rfl
      5 15 [2] [] rfl).2 2 [] rfl 17 rfl
    rw [h]; simp [parse_evt_stream]

/-- C2: when a builder's `Start` reports that it performed its own
sub-parsing (returns `true`), the engine's behaviour is exactly its
behaviour on the element's matching `EndElement` arriving next on the
already-consumed stream: pop, `End`, then `Child` on the new top or yield
on the empty stack.  The two hypotheses excluding a raw `KeyError` from
`End`/`Child` reflect that the replicated block at Parser.py lines 118-125
sits inside the `except KeyError` handler while the block at lines 130-136
does not; no builder in the repository raises `KeyError` from `End` or
`Child`. -/
theorem start_subparse_equals_end_element {N : Type} (V : Vocab N) (t : String)
    (attrs : List (String × String)) (rest : List Event) (stack : List N)
    (n : N) (k : Nat)
    (ht : t ≠ "_") (hreg : V.lookup t = true)
    (hstart : V.startOp t attrs rest = .ok (n, true, k))
    (hEndNoKey : ∀ m, V.endOp n ≠ .error (.keyErr m))
    (hChildNoKey : ∀ p c m, V.childOp p c ≠ .error (.keyErr m)) :
    parse_evt_stream V (Event.startElement t attrs :: rest) stack =
      parse_evt_stream V (Event.endElement t :: rest.drop k) (n :: stack) := by
  cases hE : V.endOp n with
  | error e =>
    cases e with
    | parseError m => simp [parse_evt_stream, ht, hreg, hstart, hE]
    | validationError m => simp [parse_evt_stream, ht, hreg, hstart, hE]
    | keyErr m => exact absurd hE (hEndNoKey m)
    | indexErr => simp [parse_evt_stream, ht, hreg, hstart, hE]
  | ok n' =>
    cases stack with
    | nil => simp [parse_evt_stream, ht, hreg, hstart, hE]
    | cons p ps =>
      cases hC : V.childOp p n' with
      | error e =>
        cases e with
        | parseError m => simp [parse_evt_stream, ht, hreg, hstart, hE, hC]
        | validationError m => simp [parse_evt_stream, ht, hreg, hstart, hE, hC]
        | keyErr m => exact absurd hC (hChildNoKey p n' m)
        | indexErr => simp [parse_evt_stream, ht, hreg, hstart, hE, hC]
      | ok p' => simp [parse_evt_stream, ht, hreg, hstart, hE, hC]

/-- Concrete run of the C2 theorem: tag `"m"` sub-parses on an empty stack;
the engine behaves as if the matching `EndElement` followed immediately. -/
theorem start_subparse_equals_end_element_witness :
    parse_evt_stream subVocab [Event.startElement "m" []] [] =
      parse_evt_stream subVocab [Event.endElement "m"] [7] :=
  start_subparse_equals_end_element subVocab "m" [] [] [] 7 0
    (by decide) rfl rfl
    (fun m h => by simp [subVocab] at h)
    (fun p c m h => by simp [subVocab] at h)

/-- Operational assumptions about a vocabulary under which the engine makes
progress: `End` and `Child` always succeed, and `Start` of a registered tag
succeeds without performing sub-parsing and without consuming further
events. -/
def TotalOps {N : Type} (V : Vocab N) : Prop :=
  (∀ n, ∃ n', V.endOp n = .ok n') ∧
  (∀ p c, ∃ p', V.childOp p c = .ok p') ∧
  (∀ t a evts, V.lookup t = true → ∃ n, V.startOp t a evts = .ok (n, false, 0))

/-- `noCloseRun d evts = true` says that, starting from stack depth `d`,
the nesting of the (non-synthetic) element events in `evts` never closes
the outermost open element: every `EndElement` fires at depth at least 2.
For a well-formed document this holds of every prefix strictly inside the
single root element — exactly the region in which an unknown tag can sit. -/
def noCloseRun (d : Nat) : List Event → Bool
  | [] => true
  | Event.startElement t _ :: rest => noCloseRun (if t = "_" then d else d + 1) rest
  | Event.endElement t :: rest =>
      if t = "_" then noCloseRun d rest
      else decide (1 < d) && noCloseRun (d - 1) rest
  | _ :: rest => noCloseRun d rest

/-- C4: if the events before a `StartElement` of an unregistered tag all
carry registered tags and never close the enclosing root element (as in
any well-formed document whose root encloses the unknown tag), the parse
terminates with `ParseError("Invalid element: ...")` at that element and
yields zero completed top-level elements. -/
theorem unknown_tag_fails_with_no_yield {N : Type} (V : Vocab N) (hTot : TotalOps V)
    (u : String) (ua : List (String × String)) (hu : u ≠ "_") (hU : V.lookup u = false) :
    ∀ (pre : List Event) (stack : List N) (post : List Event),
      noCloseRun stack.length pre = true →
      (∀ t a, Event.startElement t a ∈ pre → t ≠ "_" → V.lookup t = true) →
      parse_evt_stream V (pre ++ Event.startElement u ua :: post) stack =
        ([], some (.parseError ("Invalid element: " ++ u))) := by
  intro pre
  induction pre with
  | nil =>
    intro stack post _ _
    simp [parse_evt_stream, hu, hU]
  | cons e pre ih =>
    intro stack post hrun hreg
    cases e with
    | startElement t a =>
      by_cases ht : t = "_"
      · subst ht
        rw [List.cons_append]
        have hstep : parse_evt_stream V
            (Event.startElement "_" a :: (pre ++ Event.startElement u ua :: post)) stack =
            parse_evt_stream V (pre ++ Event.startElement u ua :: post) stack := by
          simp [parse_evt_stream]
        rw [hstep]
        exact ih stack post (by simpa [noCloseRun] using hrun)
          (fun t' a' hm ht' => hreg t' a' (List.mem_cons_of_mem _ hm) ht')
      · have hlook : V.lookup t = true := hreg t a (List.mem_cons_self _ _) ht
        obtain ⟨n, hs⟩ := hTot.2.2 t a (pre ++ Event.startElement u ua :: post) hlook
        rw [List.cons_append]
        have hstep : parse_evt_stream V
            (Event.startElement t a :: (pre ++ Event.startElement u ua :: post)) stack =
            parse_evt_stream V (pre ++ Event.startElement u ua :: post) (n :: stack) := by
          simp [parse_evt_stream, ht, hlook, hs]
        rw [hstep]
        refine ih (n :: stack) post ?_
          (fun t' a' hm ht' => hreg t' a' (List.mem_cons_of_mem _ hm) ht')
        simpa [noCloseRun, ht] using hrun
    | endElement t =>
      by_cases ht : t = "_"
      · subst ht
        rw [List.cons_append]
        have hstep : parse_evt_stream V
            (Event.endElement "_" :: (pre ++ Event.startElement u ua :: post)) stack =
            parse_evt_stream V (pre ++ Event.startElement u ua :: post) stack := by
          rw [parse_evt_stream.eq_def]
          simp
        rw [hstep]
        exact ih stack post (by simpa [noCloseRun] using hrun)
          (fun t' a' hm ht' => hreg t' a' (List.mem_cons_of_mem _ hm) ht')
      · have hrun' : (1 < stack.length) ∧
            noCloseRun (stack.length - 1) pre = true := by
          have := hrun
          simp [noCloseRun, ht] at this
          exact this
        match stack, hrun' with
        | top :: p :: ps, hrun' =>
          obtain ⟨n', hE⟩ := hTot.1 top
          obtain ⟨p', hC⟩ := hTot.2.1 p n'
          rw [List.cons_append]
          have hstep : parse_evt_stream V
              (Event.endElement t :: (pre ++ Event.startElement u ua :: post))
              (top :: p :: ps) =
              parse_evt_stream V (pre ++ Event.startElement u ua :: post) (p' :: ps) := by
            simp [parse_evt_stream, ht, hE, hC]
          rw [hstep]
          refine ih (p' :: ps) post ?_
            (fun t' a' hm ht' => hreg t' a' (List.mem_cons_of_mem _ hm) ht')
          simpa using hrun'.2
    | characters txt =>
      rw [List.cons_append]
      cases stack with
      | nil =>
        have hstep : parse_evt_stream V
            (Event.characters txt :: (pre ++ Event.startElement u ua :: post)) [] =
            parse_evt_stream V (pre ++ Event.startElement u ua :: post) [] := by
          simp [parse_evt_stream]
        rw [hstep]
        exact ih [] post (by simpa [noCloseRun] using hrun)
          (fun t' a' hm ht' => hreg t' a' (List.mem_cons_of_mem _ hm) ht')
      | cons top s =>
        have hstep : parse_evt_stream V
            (Event.characters txt :: (pre ++ Event.startElement u ua :: post)) (top :: s) =
            parse_evt_stream V (pre ++ Event.startElement u ua :: post)
              (V.cdataOp top txt :: s) := by
          simp [parse_evt_stream]
        rw [hstep]
        exact ih (V.cdataOp top txt :: s) post (by simpa [noCloseRun] using hrun)
          (fun t' a' hm ht' => hreg t' a' (List.mem_cons_of_mem _ hm) ht')
    | startDocument =>
      rw [List.cons_append]
      have hstep : parse_evt_stream V
          (Event.startDocument :: (pre ++ Event.startElement u ua :: post)) stack =
          parse_evt_stream V (pre ++ Event.startElement u ua :: post) stack := by
        simp [parse_evt_stream]
      rw [hstep]
      exact ih stack post (by simpa [noCloseRun] using hrun)
        (fun t' a' hm ht' => hreg t' a' (List.mem_cons_of_mem _ hm) ht')
    | endDocument =>
      rw [List.cons_append]
      have hstep : parse_evt_stream V
          (Event.endDocument :: (pre ++ Event.startElement u ua :: post)) stack =
          parse_evt_stream V (pre ++ Event.startElement u ua :: post) stack := by
        simp [parse_evt_stream]
      rw [hstep]
      exact ih stack post (by simpa [noCloseRun] using hrun)
        (fun t' a' hm ht' => hreg t' a' (List.mem_cons_of_mem _ hm) ht')

/-- Concrete run of the C4 theorem, the specification's own test: parsing
`<outer><bogus/></outer>` with `bogus` unregistered raises
`ParseError("Invalid element: bogus")` and yields zero completed
elements. -/
theorem unknown_tag_fails_with_no_yield_witness :
    parse_evt_stream natVocab
      [Event.startDocument, Event.startElement "outer" [],
       Event.startElement "bogus" [], Event.endElement "bogus",
       Event.endElement "outer", Event.endDocument] [] =
      ([], some (.parseError ("Invalid element: " ++ "bogus"))) := by
  have h := unknown_tag_fails_with_no_yield natVocab
    ⟨fun n => ⟨n + 10, rfl⟩, fun p c => ⟨p + c, rfl⟩, fun t a evts _ => ⟨1, rfl⟩⟩
    "bogus" [] (by decide) rfl
    [Event.startDocument, Event.startElement "outer" []] []
    [Event.endElement "bogus", Event.endElement "outer", Event.endDocument]
    (by decide)
    (by
      intro t a hmem ht
      simp only [List.mem_cons, List.not_mem_nil, or_false] at hmem
      rcases hmem with h1 | h1
      · exact absurd h1 (by simp)
      · injection h1 with h2 h3
        subst h2
        rfl)
  simpa using h

/-- The event stream produced by
`parser.parseString(parser.getSubXml(evt_stream, node))`: `getSubXml`
(Parser.py lines 99-104) extracts the element's descendant markup and
wraps it in the synthetic `<_>...</_>` container; `parseString` then
delivers `START_DOCUMENT`, the container's events around the descendant
events, and `END_DOCUMENT`. -/
def wrapSubDoc (subEvts : List Event) : List Event :=
  Event.startDocument :: Event.startElement "_" [] ::
    (subEvts ++ [Event.endElement "_", Event.endDocument])

/-- The child-feeding loop shared by the composite elements that use the
sub-XML re-parse facility (`Message.Start`, base.py lines 958-959;
`Protocol.Start`, lines 1223-1224; `Field.Start`, lines 853-854):

`for element in parser.parseString(parser.getSubXml(evt_stream, node)): self.Child(element)`

`M` is the composite element's own state and `childC` its `Child` method.
The loop pulls the nested parse's yields lazily, so elements yielded
before a parse error have already been fed to `Child` when the error
propagates. -/
def subParseFeed {N M : Type} (V : Vocab N) (childC : M → N → Except PErr M)
    (m : M) (subEvts : List Event) : Except PErr M :=
  match (parse_evt_stream V (wrapSubDoc subEvts) []).1.foldlM childC m with
  | .error e => .error e
  | .ok m' =>
    match (parse_evt_stream V (wrapSubDoc subEvts) []).2 with
    | some e => .error e
    | none => .ok m'

/-- `Parsable.Child` (Parsable.py lines 70-72) appends the child to
`self.children`; folding such a `Child` over a yield list appends the
whole list in order. -/
theorem foldlM_children_append {N M : Type} (childC : M → N → Except PErr M)
    (children : M → List N)
    (hC : ∀ m c m', childC m c = .ok m' → children m' = children m ++ [c]) :
    ∀ (ys : List N) (m m' : M), ys.foldlM childC m = .ok m' →
      children m' = children m ++ ys := by
  intro ys
  induction ys with
  | nil =>
    intro m m' h
    simp only [List.foldlM] at h
    cases h
    simp
  | cons y ys ih =>
    intro m m' h
    rw [List.foldlM_cons] at h
    cases hc : childC m y with
    | error e => rw [hc] at h; simp [Bind.bind, Except.bind] at h
    | ok m1 =>
      rw [hc] at h
      simp only [Bind.bind, Except.bind] at h
      rw [ih m1 m' h, hC m y m1 hc]
      simp

/-- C3: a composite element that uses the sub-XML re-parse facility ends
up with exactly the `children` collection produced by parsing the
subtree's markup directly as a top-level document wrapped in the synthetic
root: each top-level element yielded by that parse is appended, in
document order, and nothing else is. -/
theorem subparse_children_equal_direct_parse {N M : Type} (V : Vocab N)
    (childC : M → N → Except PErr M) (children : M → List N)
    (hC : ∀ m c m', childC m c = .ok m' → children m' = children m ++ [c])
    (m m' : M) (subEvts : List Event)
    (h : subParseFeed V childC m subEvts = .ok m') :
    children m' = children m ++ (parse_evt_stream V (wrapSubDoc subEvts) []).1 ∧
    (parse_evt_stream V (wrapSubDoc subEvts) []).2 = none := by
  unfold subParseFeed at h
  cases hf : (parse_evt_stream V (wrapSubDoc subEvts) []).1.foldlM childC m with
  | error e => rw [hf] at h; exact absurd h (by simp)
  | ok m2 =>
    rw [hf] at h
    cases he : (parse_evt_stream V (wrapSubDoc subEvts) []).2 with
    | some e => rw [he] at h; exact absurd h (by simp)
    | none =>
      rw [he] at h
      simp only [Except.ok.injEq] at h
      subst h
      exact ⟨foldlM_children_append childC children hC _ m m2 hf, rfl⟩

/-- Concrete run of the C3 theorem: a message-like composite fed from the
sub-parse of the subtree `<a/>` ends with exactly the child the direct
parse of `<_><a/></_>` yields. -/
theorem subparse_children_equal_direct_parse_witness :
    ([11] : List Nat) =
      [] ++ (parse_evt_stream natVocab
        (wrapSubDoc [Event.startElement "a" [], Event.endElement "a"]) []).1 ∧
    (parse_evt_stream natVocab
      (wrapSubDoc [Event.startElement "a" [], Event.endElement "a"]) []).2 = none := by
  have h : subParseFeed natVocab (fun (m : List Nat) c => Except.ok (m ++ [c])) []
      [Event.startElement "a" [], Event.endElement "a"] = .ok [11] := by
    simp [subParseFeed, wrapSubDoc, parse_evt_stream, natVocab]
  have h2 := subparse_children_equal_direct_parse natVocab
    (fun (m : List Nat) c => Except.ok (m ++ [c])) (fun l => l)
    (fun m c m2 hc => by cases hc; rfl) [] [11]
    [Event.startElement "a" [], Event.endElement "a"] h
  simpa using h2

/-! ## The base plugin vocabulary (src/transmute/plugins/base.py) -/

/-- Association-list lookup, modelling Python dictionary access. -/
def lookupD {α : Type} : List (String × α) → String → Option α
  | [], _ => none
  | (k', v) :: rest, k => if k' = k then some v else lookupD rest k

/-- The decimal digit characters used by `'{}'.format(n)`. -/
def digitChar (d : Nat) : Char := Char.ofNat (48 + d)

/-- The decimal rendering of a natural number, most significant digit
first — the string `'{}'.format(n)` produces for a Python int. -/
def decRepr (n : Nat) : String :=
  if n = 0 then "0" else ⟨(Nat.digits 10 n).reverse.map digitChar⟩

theorem digitChar_inj {d1 d2 : Nat} (h1 : d1 < 10) (h2 : d2 < 10)
    (h : digitChar d1 = digitChar d2) : d1 = d2 := by
  interval_cases d1 <;> interval_cases d2 <;> revert h <;> decide

theorem map_digitChar_inj : ∀ (l1 l2 : List Nat),
    (∀ d ∈ l1, d < 10) → (∀ d ∈ l2, d < 10) →
    l1.map digitChar = l2.map digitChar → l1 = l2 := by
  intro l1
  induction l1 with
  | nil =>
    intro l2 _ _ h
    cases l2 with
    | nil => rfl
    | cons d2 t2 => simp at h
  | cons d t ih =>
    intro l2 h1 h2 h
    cases l2 with
    | nil => simp at h
    | cons d2 t2 =>
      simp only [List.map_cons, List.cons.injEq] at h
      have hd := digitChar_inj (h1 d (List.mem_cons_self _ _))
        (h2 d2 (List.mem_cons_self _ _)) h.1
      have ht := ih t2 (fun x hx => h1 x (List.mem_cons_of_mem _ hx))
        (fun x hx => h2 x (List.mem_cons_of_mem _ hx)) h.2
      rw [hd, ht]

theorem decRepr_inj {m n : Nat} (h : decRepr m = decRepr n) : m = n := by
  have hdigits : ∀ k : Nat, ∀ d ∈ Nat.digits 10 k, d < 10 := by
    intro k d hd
    exact Nat.digits_lt_base (by norm_num) hd
  by_cases hm : m = 0 <;> by_cases hn : n = 0
  · rw [hm, hn]
  · exfalso
    rw [decRepr, decRepr, if_pos hm, if_neg hn] at h
    have hd := congrArg String.data h
    simp only [String.data] at hd
    have h1 : (Nat.digits 10 n).reverse.map digitChar = [digitChar 0] := by
      rw [← hd]; decide
    have h2 : (Nat.digits 10 n).reverse = [0] := by
      refine map_digitChar_inj _ [0] ?_ (by simp) h1
      intro d hd2
      exact hdigits n d (List.mem_reverse.mp hd2)
    have h3 : Nat.digits 10 n = [0] := by
      have := congrArg List.reverse h2
      simpa using this
    have h4 := Nat.ofDigits_digits 10 n
    rw [h3] at h4
    simp [Nat.ofDigits] at h4
    exact hn h4.symm
  · exfalso
    rw [decRepr, decRepr, if_neg hm, if_pos hn] at h
    have hd := congrArg String.data h
    simp only [String.data] at hd
    have h1 : (Nat.digits 10 m).reverse.map digitChar = [digitChar 0] := by
      rw [hd]; decide
    have h2 : (Nat.digits 10 m).reverse = [0] := by
      refine map_digitChar_inj _ [0] ?_ (by simp) h1
      intro d hd2
      exact hdigits m d (List.mem_reverse.mp hd2)
    have h3 : Nat.digits 10 m = [0] := by
      have := congrArg List.reverse h2
      simpa using this
    have h4 := Nat.ofDigits_digits 10 m
    rw [h3] at h4
    simp [Nat.ofDigits] at h4
    exact hm h4.symm
  · rw [decRepr, decRepr, if_neg hm, if_neg hn] at h
    have hd := congrArg String.data h
    simp only [String.data] at hd
    have h2 := map_digitChar_inj _ _
      (fun d hd2 => hdigits m d (List.mem_reverse.mp hd2))
      (fun d hd2 => hdigits n d (List.mem_reverse.mp hd2)) hd
    have h3 := congrArg List.reverse h2
    simp only [List.reverse_reverse] at h3
    exact Nat.digits_inj_iff.mp h3

/-- The state of a `Values` element (base.py lines 326-396): `_name` and
the `_values` ordered dictionary mapping each `value` child's name to that
child (we record the child's `int` attribute). -/
structure ValuesSt where
  name : Option String
  values : List (String × String)
deriving DecidableEq, Repr

/-- The `Values.name` property getter (base.py lines 377-381): a `Values`
parsed without a `name` attribute receives
`'anonymous_{}'.format(next(_anon_counter))` on first read, which is
stored back into `_name`; `ctr` threads the module-global `_anon_counter`
(base.py line 34, `itertools.count(0, 1)`). -/
def Values.nameGet (s : ValuesSt) (ctr : Nat) : String × ValuesSt × Nat :=
  match s.name with
  | some nm => (nm, s, ctr)
  | none =>
    ("anonymous_" ++ decRepr ctr,
     { s with name := some ("anonymous_" ++ decRepr ctr) }, ctr + 1)

/-- C9: a `Values` parsed without a `name` attribute reads its name as the
generated identifier `anonymous_N` (`N` the counter value); a repeated
read on the same instance returns the same name without consuming the
counter; and reads of two distinct anonymous instances — which necessarily
happen at distinct states of the strictly increasing process-wide counter
— produce distinct names. -/
theorem anonymous_values_names (s1 s2 : ValuesSt) (c1 c2 : Nat)
    (h1 : s1.name = none) (h2 : s2.name = none) (hne : c1 ≠ c2) :
    ((Values.nameGet s1 c1).1 = "anonymous_" ++ decRepr c1) ∧
    (Values.nameGet (Values.nameGet s1 c1).2.1 (Values.nameGet s1 c1).2.2 =
      Values.nameGet s1 c1) ∧
    ((Values.nameGet s1 c1).1 ≠ (Values.nameGet s2 c2).1) := by
  refine ⟨?_, ?_, ?_⟩
  · simp [Values.nameGet, h1]
  · simp [Values.nameGet, h1]
  · simp only [Values.nameGet, h1, h2]
    intro hcontra
    have hdata := congrArg String.data hcontra
    simp only [String.data_append] at hdata
    have h5 : (decRepr c1).data = (decRepr c2).data := List.append_cancel_left hdata
    exact hne (decRepr_inj (String.ext h5))

/-- Concrete run of the C9 theorem at counter states 0 and 1. -/
theorem anonymous_values_names_witness :
    (Values.nameGet ⟨none, []⟩ 0).1 = "anonymous_0" ∧
    Values.nameGet (Values.nameGet ⟨none, []⟩ 0).2.1 (Values.nameGet ⟨none, []⟩ 0).2.2 =
      Values.nameGet ⟨none, []⟩ 0 ∧
    (Values.nameGet ⟨none, []⟩ 0).1 ≠ (Values.nameGet ⟨none, []⟩ 1).1 := by
  have h := anonymous_values_names ⟨none, []⟩ ⟨none, []⟩ 0 1 rfl rfl (by decide)
  exact ⟨by rw [h.1]; rfl, h.2.1, h.2.2⟩

/-- An ancestor on a node's `parent` chain, as `Values.Validate` observes
it: either the ancestor exposes a `values` property mapping collection
names to `Values` collections (as `Message`, `Header`, `Trailer` and
`Protocol` do; each collection is recorded by its `len`, the number of its
`value` entries), or accessing `.values` raises `AttributeError` (any
other ancestor type; caught at base.py lines 370-371). -/
inductive AncNode where
  | withValues (vals : List (String × Nat))
  | noValues
deriving DecidableEq, Repr

/-- The `while` loop of `Values.Validate` (base.py lines 364-372) over the
remaining ancestor chain: succeed at the first ancestor holding a
definition of `nm` with at least one entry; skip ancestors without a
`values` namespace or whose definition of `nm` is empty. -/
def searchValuesChain (nm : String) : List AncNode → Bool
  | [] => false
  | AncNode.noValues :: rest => searchValuesChain nm rest
  | AncNode.withValues vs :: rest =>
    match lookupD vs nm with
    | some cnt => if 0 < cnt then true else searchValuesChain nm rest
    | none => searchValuesChain nm rest

/-- `Values.Validate` (base.py lines 359-375) for an element with no
children (so the closing `super().Validate(parent)` recursion is vacuous).
The chain `ancestors` lists `[parent, parent.parent, ...]`; the loop
starts at `parent.parent` (line 362, skipping the immediate container), so
it runs over the chain's tail.  The guard is Python truthiness of
`self.name` (whose getter may consume the anonymous counter `ctr`)
together with `len(self._values) == 0`. -/
def Values.ValidateRef (s : ValuesSt) (ctr : Nat) (ancestors : List AncNode) :
    Except PErr (ValuesSt × Nat) :=
  let r := Values.nameGet s ctr
  if r.1 ≠ "" ∧ r.2.1.values.length = 0 then
    if searchValuesChain r.1 (ancestors.drop 1) then .ok (r.2.1, r.2.2)
    else .error (.validationError "No definition of values")
  else .ok (r.2.1, r.2.2)

/-- What it means for one ancestor to expose a values definition under the
name `nm` with at least one entry. -/
def exposesNonempty (a : AncNode) (nm : String) : Prop :=
  match a with
  | AncNode.withValues vs => ∃ c, lookupD vs nm = some c ∧ 0 < c
  | AncNode.noValues => False

theorem searchValuesChain_iff (nm : String) :
    ∀ l : List AncNode, searchValuesChain nm l = true ↔ ∃ a ∈ l, exposesNonempty a nm := by
  intro l
  induction l with
  | nil => simp [searchValuesChain]
  | cons a rest ih =>
    cases a with
    | noValues =>
      rw [searchValuesChain, ih]
      constructor
      · rintro ⟨x, hx, he⟩
        exact ⟨x, List.mem_cons_of_mem _ hx, he⟩
      · rintro ⟨x, hx, he⟩
        rcases List.mem_cons.mp hx with rfl | hx2
        · exact absurd he (by simp [exposesNonempty])
        · exact ⟨x, hx2, he⟩
    | withValues vs =>
      rw [searchValuesChain]
      cases hlk : lookupD vs nm with
      | none =>
        rw [ih]
        constructor
        · rintro ⟨x, hx, he⟩
          exact ⟨x, List.mem_cons_of_mem _ hx, he⟩
        · rintro ⟨x, hx, he⟩
          rcases List.mem_cons.mp hx with rfl | hx2
          · obtain ⟨c, hc, _⟩ := he
            rw [hlk] at hc
            cases hc
          · exact ⟨x, hx2, he⟩
      | some cnt =>
        by_cases hpos : 0 < cnt
        · simp only [if_pos hpos]
          constructor
          · intro _
            exact ⟨AncNode.withValues vs, List.mem_cons_self _ _, ⟨cnt, hlk, hpos⟩⟩
          · intro _; trivial
        · simp only [if_neg hpos]
          rw [ih]
          constructor
          · rintro ⟨x, hx, he⟩
            exact ⟨x, List.mem_cons_of_mem _ hx, he⟩
          · rintro ⟨x, hx, he⟩
            rcases List.mem_cons.mp hx with rfl | hx2
            · obtain ⟨c, hc, hcpos⟩ := he
              rw [hlk] at hc
              cases hc
              exact absurd hcpos hpos
            · exact ⟨x, hx2, he⟩

/-- C5: a named `values` element with zero `value` children validates
successfully exactly when some ancestor past its immediate container
exposes a values definition under the same name with at least one entry;
when the chain is exhausted without one, `Validate` raises
`ValidationError` (the `UnresolvedReference` condition). -/
theorem values_reference_resolution (s : ValuesSt) (nm : String) (ctr : Nat)
    (hname : s.name = some nm) (hnm : nm ≠ "") (hzero : s.values = [])
    (anc : List AncNode) :
    (Values.ValidateRef s ctr anc = .ok (s, ctr) ↔
      ∃ a ∈ anc.drop 1, exposesNonempty a nm) ∧
    ((¬ ∃ a ∈ anc.drop 1, exposesNonempty a nm) →
      Values.ValidateRef s ctr anc = .error (.validationError "No definition of values")) := by
  have hget : Values.nameGet s ctr = (nm, s, ctr) := by
    rw [Values.nameGet, hname]
  constructor
  · rw [Values.ValidateRef, hget]
    simp only [hnm, ne_eq, not_false_iff, true_and, hzero, List.length_nil, if_pos]
    rw [← searchValuesChain_iff]
    cases hs : searchValuesChain nm (anc.drop 1) with
    | true => simp
    | false => simp
  · intro hnot
    rw [Values.ValidateRef, hget]
    have hs : searchValuesChain nm (anc.drop 1) = false := by
      cases hs2 : searchValuesChain nm (anc.drop 1) with
      | true => exact absurd ((searchValuesChain_iff nm _).mp hs2) hnot
      | false => rfl
    simp only [hnm, ne_eq, not_false_iff, true_and, hzero, List.length_nil, if_pos, hs]
    simp

/-- Concrete run of the C5 theorem: a named empty `values` resolves
against a grandparent exposing a two-entry definition of the same name,
and fails by `ValidationError` when no ancestor does. -/
theorem values_reference_resolution_witness :
    Values.ValidateRef ⟨some "colors", []⟩ 5
      [AncNode.noValues, AncNode.withValues [("colors", 2)]] =
      .ok (⟨some "colors", []⟩, 5) ∧
    Values.ValidateRef ⟨some "colors", []⟩ 5 [AncNode.noValues, AncNode.noValues] =
      .error (.validationError "No definition of values") := by
  constructor
  · exact (values_reference_resolution ⟨some "colors", []⟩ "colors" 5 rfl (by decide) rfl
      [AncNode.noValues, AncNode.withValues [("colors", 2)]]).1.mpr
      ⟨AncNode.withValues [("colors", 2)], by simp, ⟨2, by simp [lookupD], by decide⟩⟩
  · exact (values_reference_resolution ⟨some "colors", []⟩ "colors" 5 rfl (by decide) rfl
      [AncNode.noValues, AncNode.noValues]).2
      (by
        rintro ⟨a, ha, he⟩
        simp only [List.drop_one, List.tail_cons, List.mem_singleton] at ha
        subst ha
        exact he)

/-- The cdata-bearing state of a `Brief` or `Detail` child (base.py lines
54-104 and 113-163): `data` is the text delivered by `Cdata`, if any. -/
structure TextSt where
  data : Option String
deriving DecidableEq, Repr

/-- A child of a `Description` element, classified by tag the way
`Description.Child` does it (base.py lines 202-207). -/
inductive DChild where
  | brief (b : TextSt)
  | detail (d : TextSt)
  | other
deriving DecidableEq, Repr

/-- The state of a `Description` element (base.py lines 174-250):
`_name`, `_abbreviation`, the `_brief` and `_detail` slots, and the base
class `children` list. -/
structure DescriptionSt where
  name : Option String
  abbreviation : Option String
  brief : Option DChild
  detail : Option DChild
  children : List DChild
deriving DecidableEq, Repr

/-- A `Description` as freshly constructed (base.py lines 175-181). -/
def descInit : DescriptionSt := ⟨none, none, none, none, []⟩

/-- The `brief` property setter (base.py lines 232-236): assign `_brief`,
and when `_detail` is still `None` also assign `_detail` to the same
value. -/
def Description.setBrief (s : DescriptionSt) (v : DChild) : DescriptionSt :=
  if s.detail = none then { s with brief := some v, detail := some v }
  else { s with brief := some v }

/-- `Description.Child` (base.py lines 202-207): `super().Child(child)`
appends to `children`; then a `brief` child goes through the `brief`
property setter and a `detail` child is assigned to the `detail` slot. -/
def Description.ChildD (s : DescriptionSt) (c : DChild) : DescriptionSt :=
  let s1 := { s with children := s.children ++ [c] }
  match c with
  | DChild.brief _ => Description.setBrief s1 c
  | DChild.detail _ => { s1 with detail := some c }
  | DChild.other => s1

/-- `Brief.Validate` and `Detail.Validate` (base.py lines 137-140 and
78-81): fail with `ValidationError` when the child holds no cdata. -/
def DChild.ValidateC : DChild → Except PErr Unit
  | DChild.brief b =>
    if b.data = none then .error (.validationError "brief missing data") else .ok ()
  | DChild.detail d =>
    if d.data = none then .error (.validationError "detail missing data") else .ok ()
  | DChild.other => .ok ()

/-- The recursion of `Parsable.Validate` (Parsable.py lines 79-83) over a
`Description`'s children. -/
def validateChildren : List DChild → Except PErr Unit
  | [] => .ok ()
  | c :: rest =>
    match DChild.ValidateC c with
    | .error e => .error e
    | .ok _ => validateChildren rest

/-- `Description.Validate` (base.py lines 209-214): require a brief, let
the brief double as the detail when no detail was supplied, then recurse
into the children via `super().Validate`. -/
def Description.ValidateD (s : DescriptionSt) : Except PErr DescriptionSt :=
  if s.brief = none then .error (.validationError "description missing brief")
  else
    match validateChildren (if s.detail = none then { s with detail := s.brief } else s).children with
    | .error e => .error e
    | .ok _ => .ok (if s.detail = none then { s with detail := s.brief } else s)

theorem foldl_child_other (cs : List DChild) (h : ∀ c ∈ cs, c = DChild.other) :
    ∀ s : DescriptionSt, cs.foldl Description.ChildD s =
      { s with children := s.children ++ cs } := by
  induction cs with
  | nil => intro s; simp
  | cons c rest ih =>
    intro s
    have hc : c = DChild.other := h c (List.mem_cons_self _ _)
    subst hc
    rw [List.foldl_cons]
    rw [ih (fun x hx => h x (List.mem_cons_of_mem _ hx))]
    simp [Description.ChildD]

theorem validateChildren_ok (cs : List DChild)
    (h : ∀ c ∈ cs, DChild.ValidateC c = .ok ()) : validateChildren cs = .ok () := by
  induction cs with
  | nil => rfl
  | cons c rest ih =>
    rw [validateChildren, h c (List.mem_cons_self _ _)]
    exact ih (fun x hx => h x (List.mem_cons_of_mem _ hx))

/-- C10: every successfully validated description ends with a non-None
detail; and a description whose document supplied one brief child (with
cdata) and no detail child validates successfully with its detail slot
equal to its brief slot — the brief doubles as the detail. -/
theorem description_detail_defaults_to_brief :
    (∀ s s1, Description.ValidateD s = .ok s1 → s1.detail ≠ none) ∧
    (∀ (pre post : List DChild) (b : TextSt) (str : String),
      (∀ c ∈ pre, c = DChild.other) → (∀ c ∈ post, c = DChild.other) →
      b.data = some str →
      Description.ValidateD ((pre ++ DChild.brief b :: post).foldl Description.ChildD descInit) =
        .ok ⟨none, none, some (DChild.brief b), some (DChild.brief b),
             pre ++ DChild.brief b :: post⟩) := by
  constructor
  · intro s s1 h
    rw [Description.ValidateD] at h
    by_cases hb : s.brief = none
    · rw [if_pos hb] at h; cases h
    · rw [if_neg hb] at h
      cases hv : validateChildren (if s.detail = none then
          { s with detail := s.brief } else s).children with
      | error e => rw [hv] at h; cases h
      | ok _ =>
        rw [hv] at h
        cases h
        by_cases hd : s.detail = none
        · simp only [hd, if_pos]
          simpa using hb
        · simp only [hd, if_neg, ite_false]
          exact hd
  · intro pre post b str hpre hpost hb
    have hfold : (pre ++ DChild.brief b :: post).foldl Description.ChildD descInit =
        ⟨none, none, some (DChild.brief b), some (DChild.brief b),
         pre ++ DChild.brief b :: post⟩ := by
      rw [List.foldl_append, foldl_child_other pre hpre descInit]
      rw [List.foldl_cons]
      have hstep : Description.ChildD
          { descInit with children := descInit.children ++ pre } (DChild.brief b) =
          ⟨none, none, some (DChild.brief b), some (DChild.brief b),
           pre ++ [DChild.brief b]⟩ := by
        simp [Description.ChildD, Description.setBrief, descInit]
      rw [hstep, foldl_child_other post hpost]
      simp
    have hval : validateChildren (pre ++ DChild.brief b :: post) = .ok () := by
      refine validateChildren_ok _ ?_
      intro c hc
      rcases List.mem_append.mp hc with hcp | hcp
      · rw [hpre c hcp]; rfl
      · rcases List.mem_cons.mp hcp with rfl | hcp2
        · simp [DChild.ValidateC, hb]
        · rw [hpost c hcp2]; rfl
    rw [hfold]
    simp [Description.ValidateD, hval]

/-- Concrete run of the C10 theorem: one brief child carrying cdata and no
detail child; after `Validate` the detail is the brief. -/
theorem description_detail_defaults_to_brief_witness :
    Description.ValidateD ([DChild.brief ⟨some "x"⟩].foldl Description.ChildD descInit) =
      .ok ⟨none, none, some (DChild.brief ⟨some "x"⟩), some (DChild.brief ⟨some "x"⟩),
           [DChild.brief ⟨some "x"⟩]⟩ := by
  have h := description_detail_defaults_to_brief.2 [] [] ⟨some "x"⟩ "x"
    (by intro c hc; cases hc) (by intro c hc; cases hc) rfl
  simpa using h

/-- A `Field` as `Message.Child` observes it: its identifying
`abbreviation` (the `description` child's abbreviation; `''` when the
description is missing — base.py lines 892-897). -/
structure FieldRep where
  abbreviation : String
deriving DecidableEq, Repr

/-- A child of a `Message`, classified by tag the way `Message.Child`
does it (base.py lines 969-986).  `description` children carry an
identity so that silent replacement is observable. -/
inductive MsgChild where
  | field (f : FieldRep)
  | values (v : ValuesSt)
  | description (d : Nat)
  | header
  | trailer
  | other
deriving DecidableEq, Repr

/-- The state of a `Message` (base.py lines 934-956) restricted to the
slots `Child` touches: the base-class `children` list, the `_values` and
`_fields` ordered dictionaries, and the `description`, `header` and
`trailer` slots. -/
structure MsgSt where
  children : List MsgChild
  values : List (String × ValuesSt)
  fields : List (String × FieldRep)
  description : Option Nat
  header : Bool
  trailer : Bool
deriving DecidableEq, Repr

/-- A `Message` as freshly constructed (base.py lines 934-943). -/
def msgInit : MsgSt := ⟨[], [], [], none, false, false⟩

/-- `Message.Child` (base.py lines 969-986): `super().Child` appends to
`children`; a `values` child is stored under `child.name` (whose getter
may consume the anonymous counter `ctr`) unless that key is taken, and a
`field` child under `child.abbreviation` unless taken — duplicates raise
`ParseError`; `description`, `header` and `trailer` children replace
their slots silently.  On an error the whole parse aborts, so the
transient mutation preceding the `raise` is unobservable and the error
value carries no state. -/
def Message.ChildM (m : MsgSt) (c : MsgChild) (ctr : Nat) : Except PErr (MsgSt × Nat) :=
  match c with
  | MsgChild.values v =>
    let r := Values.nameGet v ctr
    if lookupD m.values r.1 = none then
      .ok ({ m with children := m.children ++ [MsgChild.values r.2.1],
                    values := m.values ++ [(r.1, r.2.1)] }, r.2.2)
    else .error (.parseError "Duplicate values at the same scope under message")
  | MsgChild.field f =>
    if lookupD m.fields f.abbreviation = none then
      .ok ({ m with children := m.children ++ [c],
                    fields := m.fields ++ [(f.abbreviation, f)] }, ctr)
    else .error (.parseError "message with duplicate fields")
  | MsgChild.description d =>
    .ok ({ m with children := m.children ++ [c], description := some d }, ctr)
  | MsgChild.header =>
    .ok ({ m with children := m.children ++ [c], header := true }, ctr)
  | MsgChild.trailer =>
    .ok ({ m with children := m.children ++ [c], trailer := true }, ctr)
  | MsgChild.other =>
    .ok ({ m with children := m.children ++ [c] }, ctr)

/-- The `itertools.combinations(keys, 2)` traversal order: every earlier
element against every later one. -/
def anyPair {α : Type} (p : α → α → Bool) : List α → Bool
  | [] => false
  | x :: xs => xs.any (p x) || anyPair p xs

/-- The duplicate-abbreviation test of `Message.Validate` (base.py lines
999-1000): over all 2-combinations of `_fields` keys, compare the stored
fields' abbreviations. -/
def Message.dupFieldCheck (fields : List (String × FieldRep)) : Bool :=
  anyPair (fun a b => a.2.abbreviation == b.2.abbreviation) fields

/-- The invariant of every `_fields` dictionary `Message.Child` builds:
each entry is keyed by its field's abbreviation, and keys are distinct. -/
def FieldsKeyed (fields : List (String × FieldRep)) : Prop :=
  (∀ e ∈ fields, e.1 = e.2.abbreviation) ∧ fields.Pairwise (fun a b => a.1 ≠ b.1)

theorem lookupD_none_iff {α : Type} :
    ∀ (l : List (String × α)) (k : String),
      lookupD l k = none ↔ ∀ e ∈ l, e.1 ≠ k := by
  intro l k
  induction l with
  | nil => simp [lookupD]
  | cons e rest ih =>
    rw [lookupD]
    by_cases he : e.1 = k
    · rw [if_pos he]
      simp only [iff_false, reduceCtorEq, false_iff]
      push_neg
      exact ⟨e, List.mem_cons_self _ _, he⟩
    · rw [if_neg he, ih]
      constructor
      · intro hall x hx
        rcases List.mem_cons.mp hx with rfl | hx2
        · exact he
        · exact hall x hx2
      · intro hall x hx
        exact hall x (List.mem_cons_of_mem _ hx)

theorem dupFieldCheck_false_of_keyed :
    ∀ fs : List (String × FieldRep), FieldsKeyed fs → Message.dupFieldCheck fs = false := by
  intro fs
  induction fs with
  | nil => intro _; rfl
  | cons e rest ih =>
    rintro ⟨habbr, hpw⟩
    rw [Message.dupFieldCheck, anyPair]
    have h1 : rest.any (fun b => e.2.abbreviation == b.2.abbreviation) = false := by
      rw [List.any_eq_false]
      intro b hb
      have hne : e.1 ≠ b.1 := (List.pairwise_cons.mp hpw).1 b hb
      have he1 : e.1 = e.2.abbreviation := habbr e (List.mem_cons_self _ _)
      have hb1 : b.1 = b.2.abbreviation := habbr b (List.mem_cons_of_mem _ hb)
      intro hcontra
      exact hne (by rw [he1, hb1, eq_of_beq hcontra])
    rw [h1]
    have h2 := ih ⟨fun x hx => habbr x (List.mem_cons_of_mem _ hx),
      (List.pairwise_cons.mp hpw).2⟩
    rw [Message.dupFieldCheck] at h2
    rw [h2]
    rfl

theorem childM_field_preserves_keyed (m : MsgSt) (f : FieldRep) (ctr : Nat)
    (m' : MsgSt) (ctr' : Nat)
    (h : Message.ChildM m (MsgChild.field f) ctr = .ok (m', ctr'))
    (hk : FieldsKeyed m.fields) : FieldsKeyed m'.fields := by
  rw [Message.ChildM] at h
  by_cases hl : lookupD m.fields f.abbreviation = none
  · rw [if_pos hl] at h
    simp only [Except.ok.injEq, Prod.mk.injEq] at h
    obtain ⟨h1, h2⟩ := h
    subst h1
    show FieldsKeyed (m.fields ++ [(f.abbreviation, f)])
    constructor
    · intro e he
      rcases List.mem_append.mp he with he2 | he2
      · exact hk.1 e he2
      · rcases List.mem_singleton.mp he2 with rfl
        rfl
    · rw [List.pairwise_append]
      refine ⟨hk.2, List.pairwise_singleton _ _, ?_⟩
      intro a ha b hb
      rcases List.mem_singleton.mp hb with rfl
      exact (lookupD_none_iff m.fields f.abbreviation).mp hl a ha
  · rw [if_neg hl] at h
    cases h

/-- C6 counterexample: a message already holding a field with abbreviation
`"x"` rejects a second sibling field with the same abbreviation inside
`Child` — a parse-time `ParseError`, not a validation-time error — so the
claimed `Validate`-raised duplicate failure can never occur; indeed the
pairwise check of `Message.Validate` is false on the state actually
built. -/
theorem duplicate_abbreviation_fails_in_child_not_validate :
    Message.ChildM ⟨[MsgChild.field ⟨"x"⟩], [], [("x", ⟨"x"⟩)], none, false, false⟩
        (MsgChild.field ⟨"x"⟩) 0 =
      .error (.parseError "message with duplicate fields") ∧
    Message.dupFieldCheck [("x", ⟨"x"⟩)] = false := by
  constructor
  · rw [Message.ChildM]
    rw [if_neg (by simp [lookupD])]
  · rfl

/-- C6 amended: two sibling field children of one message sharing an
identifying abbreviation make `Message.Child` raise a duplicate
`ParseError` during parsing (so such a tree never reaches `Validate`);
`Message.Validate`'s own pairwise abbreviation check never fires on any
fields dictionary `Message.Child` builds; and two fields with the same
abbreviation under different message parents are both accepted without
error. -/
theorem duplicate_abbreviation_rules (m : MsgSt) (f : FieldRep) (ctr : Nat) :
    (lookupD m.fields f.abbreviation ≠ none →
      Message.ChildM m (MsgChild.field f) ctr =
        .error (.parseError "message with duplicate fields")) ∧
    (∀ m' ctr', FieldsKeyed m.fields →
      Message.ChildM m (MsgChild.field f) ctr = .ok (m', ctr') →
      Message.dupFieldCheck m'.fields = false) ∧
    (∀ m2 : MsgSt, lookupD m.fields f.abbreviation = none →
      lookupD m2.fields f.abbreviation = none →
      (∃ r1, Message.ChildM m (MsgChild.field f) ctr = .ok r1) ∧
      (∃ r2, Message.ChildM m2 (MsgChild.field f) ctr = .ok r2)) := by
  refine ⟨?_, ?_, ?_⟩
  · intro hl
    rw [Message.ChildM, if_neg hl]
  · intro m' ctr' hk h
    exact dupFieldCheck_false_of_keyed m'.fields
      (childM_field_preserves_keyed m f ctr m' ctr' h hk)
  · intro m2 hl1 hl2
    constructor
    · exact ⟨_, by rw [Message.ChildM, if_pos hl1]⟩
    · exact ⟨_, by rw [Message.ChildM, if_pos hl2]⟩

/-- Concrete run of the C6 amended theorem: the duplicate sibling errors;
the built state passes the pairwise check; two messages each take a field
abbreviated `"x"`. -/
theorem duplicate_abbreviation_rules_witness :
    Message.ChildM ⟨[], [], [("x", ⟨"x"⟩)], none, false, false⟩ (MsgChild.field ⟨"x"⟩) 0 =
      .error (.parseError "message with duplicate fields") ∧
    Message.dupFieldCheck [("x", ⟨"x"⟩)] = false ∧
    (∃ r1, Message.ChildM msgInit (MsgChild.field ⟨"x"⟩) 0 = .ok r1) := by
  have h := duplicate_abbreviation_rules ⟨[], [], [("x", ⟨"x"⟩)], none, false, false⟩ ⟨"x"⟩ 0
  have h2 := duplicate_abbreviation_rules msgInit ⟨"x"⟩ 0
  refine ⟨h.1 (by simp [lookupD]), ?_, (h2.2.2 msgInit rfl rfl).1⟩
  exact h2.2.1 ⟨[MsgChild.field ⟨"x"⟩], [], [("x", ⟨"x"⟩)], none, false, false⟩ 0
    ⟨by intro e he; simp [msgInit] at he, List.Pairwise.nil⟩ rfl

/-- A child of a `Position` element, classified by tag the way
`Position.Child` does it (base.py lines 570-587); the payload identifies
the child instance. -/
inductive PChild where
  | bits (n : Nat)
  | chunks (n : Nat)
  | other
deriving DecidableEq, Repr

/-- The state of a `Position` (base.py lines 544-550) restricted to the
slots `Child` touches: the base-class `children` list and the `_bits` and
`_chunks` slots. -/
structure PosSt where
  children : List PChild
  bits : Option Nat
  chunks : Option Nat
deriving DecidableEq, Repr

/-- `Position.Child` (base.py lines 570-587): append to `children`
(`super().Child`); a `bits` child is accepted only when no `bits` child
was seen (else `ParseError` "multiple") and no `chunks` child was seen
(else `ParseError` "both"); symmetrically for a `chunks` child; any other
child is only appended. -/
def Position.ChildP (p : PosSt) (c : PChild) : Except PErr PosSt :=
  match c with
  | PChild.bits b =>
    match p.bits with
    | none =>
      match p.chunks with
      | none => .ok { p with children := p.children ++ [c], bits := some b }
      | some _ => .error (.parseError "position with both bits and chunks children")
    | some _ => .error (.parseError "position with multiple bits children")
  | PChild.chunks ch =>
    match p.chunks with
    | none =>
      match p.bits with
      | none => .ok { p with children := p.children ++ [c], chunks := some ch }
      | some _ => .error (.parseError "position with both bits and chunks children")
    | some _ => .error (.parseError "position with multiple chunks children")
  | PChild.other => .ok { p with children := p.children ++ [c] }

/-- C8 counterexample: an element that already holds a `description` child
accepts a second `description` child without any error — `Message.Child`
silently replaces the slot (base.py lines 981-982) — contradicting the
claim that duplicate description children raise `MalformedElement` at the
`Child` call. -/
theorem duplicate_description_child_accepted :
    Message.ChildM ⟨[MsgChild.description 1], [], [], some 1, false, false⟩
        (MsgChild.description 2) 0 =
      .ok (⟨[MsgChild.description 1, MsgChild.description 2], [], [], some 2, false, false⟩, 0) :=
  rfl

/-- C8 amended: a `position` element receiving a second `bits` or `chunks`
child, or one of each, fails with `ParseError` at the moment the
offending `Child` call is made, during parsing; but duplicate
`description` children are accepted silently, the later one replacing the
earlier. -/
theorem contradictory_children_fail_in_child (p : PosSt) (n : Nat) :
    (p.bits ≠ none →
      Position.ChildP p (PChild.bits n) =
        .error (.parseError "position with multiple bits children")) ∧
    (p.bits = none → p.chunks ≠ none →
      Position.ChildP p (PChild.bits n) =
        .error (.parseError "position with both bits and chunks children")) ∧
    (p.chunks ≠ none →
      Position.ChildP p (PChild.chunks n) =
        .error (.parseError "position with multiple chunks children")) ∧
    (p.chunks = none → p.bits ≠ none →
      Position.ChildP p (PChild.chunks n) =
        .error (.parseError "position with both bits and chunks children")) ∧
    (∀ (m : MsgSt) (d ctr : Nat),
      Message.ChildM m (MsgChild.description d) ctr =
        .ok ({ m with children := m.children ++ [MsgChild.description d],
                      description := some d }, ctr)) := by
  refine ⟨?_, ?_, ?_, ?_, ?_⟩
  · intro hb
    cases hbv : p.bits with
    | none => exact absurd hbv hb
    | some b0 => rw [Position.ChildP, hbv]
  · intro hb hc
    cases hcv : p.chunks with
    | none => exact absurd hcv hc
    | some c0 => rw [Position.ChildP, hb, hcv]
  · intro hc
    cases hcv : p.chunks with
    | none => exact absurd hcv hc
    | some c0 => rw [Position.ChildP, hcv]
  · intro hc hb
    cases hbv : p.bits with
    | none => exact absurd hbv hb
    | some b0 => rw [Position.ChildP, hc, hbv]
  · intro m d ctr
    rfl

/-- Concrete run of the C8 amended theorem: a position with a `bits` child
rejects a second `bits` child and rejects a `chunks` child; a message
takes a second description silently. -/
theorem contradictory_children_fail_in_child_witness :
    Position.ChildP ⟨[PChild.bits 1], some 1, none⟩ (PChild.bits 2) =
      .error (.parseError "position with multiple bits children") ∧
    Position.ChildP ⟨[PChild.bits 1], some 1, none⟩ (PChild.chunks 2) =
      .error (.parseError "position with both bits and chunks children") ∧
    Message.ChildM ⟨[], [], [], some 1, false, false⟩ (MsgChild.description 2) 0 =
      .ok (⟨[MsgChild.description 2], [], [], some 2, false, false⟩, 0) := by
  have h := contradictory_children_fail_in_child ⟨[PChild.bits 1], some 1, none⟩ 2
  refine ⟨h.1 (by simp), h.2.2.2.1 rfl (by simp), ?_⟩
  have h5 := h.2.2.2.2 ⟨[], [], [], some 1, false, false⟩ 2 0
  simpa using h5

/-- A `Field` restricted to the state its `Validate` consults for endian
resolution (base.py lines 829-856, 872-883): `_endian` as set from a
vetted explicit `endian` attribute during `Start` (lines 846-851), or
`None`; and whether a `description` child is present (required at lines
878-881). -/
structure FieldE where
  endianAttr : Option String
  desc : Bool
deriving DecidableEq, Repr

/-- A `Message` (or a `Header`/`Trailer`, which subclass it) restricted to
the endian-relevant state.  `Message.Start` never assigns `_endian`
(base.py lines 941 and 954 leave it `None`), so only the parent chain can
supply it; `fields` are the field children and `subs` the nested
header/trailer children. -/
inductive MessageE where
  | mk (desc : Bool) (fields : List FieldE) (subs : List MessageE)

/-- `Field.Validate` (base.py lines 872-883), endian and description part:
an unset `_endian` inherits `parent.endian` — the parent's resolved
endianness — or fails with `ValidationError` when the parent has none;
then a missing description fails. -/
def Field.ValidateE (f : FieldE) (parentEndian : Option String) : Except PErr FieldE :=
  match f.endianAttr with
  | some e =>
    if f.desc then .ok ⟨some e, f.desc⟩
    else .error (.validationError "field missing description")
  | none =>
    match parentEndian with
    | some pe =>
      if f.desc then .ok ⟨some pe, f.desc⟩
      else .error (.validationError "field missing description")
    | none => .error (.validationError "field missing endian value")

/-- `Field.Validate` folded over a message's field children, in order
(part of `Parsable.Validate`'s recursion, Parsable.py lines 79-83). -/
def FieldList.ValidateE (pe : Option String) : List FieldE → Except PErr (List FieldE)
  | [] => .ok []
  | f :: rest =>
    match Field.ValidateE f pe with
    | .error e => .error e
    | .ok f2 =>
      match FieldList.ValidateE pe rest with
      | .error e => .error e
      | .ok rest2 => .ok (f2 :: rest2)

mutual

/-- `Message.Validate` (base.py lines 988-998) restricted to the
endian-relevant slice: `_endian` is `None` after parsing, so it is
assigned `parent.endian` (lines 989-993) or the validation fails; then the
children recursion (`super().Validate`, line 994) validates fields and
nested messages against this message's now-resolved endianness (its
`endian` property, lines 1035-1040, returns the assigned `_endian`);
finally the description requirement (lines 995-998). -/
def Message.ValidateE (parentEndian : Option String) : MessageE → Except PErr MessageE
  | .mk d fs subs =>
    match parentEndian with
    | none => .error (.validationError "message missing endian value")
    | some pe =>
      match FieldList.ValidateE (some pe) fs with
      | .error e => .error e
      | .ok fs2 =>
        match MessageList.ValidateE (some pe) subs with
        | .error e => .error e
        | .ok subs2 =>
          if d then .ok (.mk d fs2 subs2)
          else .error (.validationError "message missing description")

/-- `Message.Validate` folded over a list of message children, in order. -/
def MessageList.ValidateE (pe : Option String) : List MessageE → Except PErr (List MessageE)
  | [] => .ok []
  | m :: rest =>
    match Message.ValidateE pe m with
    | .error e => .error e
    | .ok m2 =>
      match MessageList.ValidateE pe rest with
      | .error e => .error e
      | .ok rest2 => .ok (m2 :: rest2)

end

/-- A `Protocol` restricted to the endian-relevant state: `endian` is the
`_endian` the constructor-time `Start` resolved and always sets (base.py
lines 1207-1215), exposed unchanged by the `endian` property (lines
1289-1291). -/
structure ProtocolE where
  endian : String
  desc : Bool
  msgs : List MessageE

/-- The endian handling of `Protocol.Start` (base.py lines 1207-1215): a
missing attribute defaults to `big`; a value outside `Constants.endian`
raises `ParseError`. -/
def Protocol.startEndian (a : Option String) : Except PErr String :=
  match a with
  | none => .ok "big"
  | some s =>
    if s = "big" ∨ s = "little" then .ok s
    else .error (.parseError "Invalid endian value")

/-- `Protocol.Validate` (base.py lines 1258-1269) restricted to the
endian-relevant recursion: the children validate against the protocol,
then the description requirement is checked. -/
def Protocol.ValidateE (p : ProtocolE) : Except PErr ProtocolE :=
  match MessageList.ValidateE (some p.endian) p.msgs with
  | .error e => .error e
  | .ok msgs2 =>
    if p.desc then .ok ⟨p.endian, p.desc, msgs2⟩
    else .error (.validationError "protocol missing description")

mutual

/-- All fields in a message subtree, in document order. -/
def collectFields : MessageE → List FieldE
  | .mk _ fs subs => fs ++ collectFieldsL subs

/-- All fields under a list of messages, in document order. -/
def collectFieldsL : List MessageE → List FieldE
  | [] => []
  | m :: rest => collectFields m ++ collectFieldsL rest

end

/-- All fields of a protocol tree, in document order. -/
def collectFieldsP (p : ProtocolE) : List FieldE := collectFieldsL p.msgs

/-- The resolution the specification describes: an explicit attribute
wins; otherwise the root's endianness is inherited. -/
def resolveEndian (root : String) (f : FieldE) : FieldE :=
  ⟨some (f.endianAttr.getD root), f.desc⟩

theorem fieldValidateE_resolves (f f2 : FieldE) (pe : String)
    (h : Field.ValidateE f (some pe) = .ok f2) : f2 = resolveEndian pe f := by
  obtain ⟨fe, fd⟩ := f
  cases fd with
  | false =>
    cases fe with
    | none => simp [Field.ValidateE] at h
    | some e => simp [Field.ValidateE] at h
  | true =>
    cases fe with
    | none =>
      simp only [Field.ValidateE] at h
      rw [if_pos trivial] at h
      cases h
      rfl
    | some e =>
      simp only [Field.ValidateE] at h
      rw [if_pos trivial] at h
      cases h
      rfl

theorem fields_validate_resolves (pe : String) :
    ∀ (fs fs2 : List FieldE), FieldList.ValidateE (some pe) fs = .ok fs2 →
      fs2 = fs.map (resolveEndian pe) := by
  intro fs
  induction fs with
  | nil => intro fs2 h; rw [FieldList.ValidateE] at h; cases h; rfl
  | cons f rest ih =>
    intro fs2 h
    rw [FieldList.ValidateE] at h
    cases hf : Field.ValidateE f (some pe) with
    | error e => rw [hf] at h; cases h
    | ok f2 =>
      rw [hf] at h
      cases hr : FieldList.ValidateE (some pe) rest with
      | error e => rw [hr] at h; cases h
      | ok rest2 =>
        rw [hr] at h
        cases h
        rw [List.map_cons, ← fieldValidateE_resolves f f2 pe hf, ← ih rest2 hr]

theorem msg_validate_structure (pe : String) (d : Bool) (fs : List FieldE)
    (subs : List MessageE) (m2 : MessageE)
    (h : Message.ValidateE (some pe) (.mk d fs subs) = .ok m2) :
    ∃ fs2 subs2, FieldList.ValidateE (some pe) fs = .ok fs2 ∧
      MessageList.ValidateE (some pe) subs = .ok subs2 ∧
      m2 = .mk d fs2 subs2 := by
  rw [Message.ValidateE] at h
  cases hf : FieldList.ValidateE (some pe) fs with
  | error e => rw [hf] at h; cases h
  | ok fs2 =>
    rw [hf] at h
    cases hs : MessageList.ValidateE (some pe) subs with
    | error e => rw [hs] at h; cases h
    | ok subs2 =>
      rw [hs] at h
      cases d with
      | false => exact absurd h (by simp)
      | true => exact ⟨fs2, subs2, rfl, rfl, (Except.ok.inj h).symm⟩

theorem msgs_validate_resolves (pe : String) :
    ∀ (ms ms2 : List MessageE), MessageList.ValidateE (some pe) ms = .ok ms2 →
      collectFieldsL ms2 = (collectFieldsL ms).map (resolveEndian pe)
  | [], ms2, h => by
    rw [MessageList.ValidateE] at h
    cases h
    rfl
  | (MessageE.mk d fs subs) :: rest, ms2, h => by
    rw [MessageList.ValidateE] at h
    cases hm : Message.ValidateE (some pe) (MessageE.mk d fs subs) with
    | error e => rw [hm] at h; cases h
    | ok m2 =>
      rw [hm] at h
      cases hr : MessageList.ValidateE (some pe) rest with
      | error e => rw [hr] at h; cases h
      | ok rest2 =>
        rw [hr] at h
        cases h
        obtain ⟨fs2, subs2, hf, hs, rfl⟩ := msg_validate_structure pe d fs subs m2 hm
        rw [collectFieldsL, collectFieldsL, collectFields, collectFields]
        rw [fields_validate_resolves pe fs fs2 hf]
        rw [msgs_validate_resolves pe subs subs2 hs]
        rw [msgs_validate_resolves pe rest rest2 hr]
        simp [List.map_append]

/-- C7: in a validated tree whose root protocol carries `endian=little`,
every field resolves, after `Validate`, to its explicit attribute when one
was given (so `endian=big` stays `big` regardless of the ancestors) and to
the root's `little` otherwise (inherited through the message chain, none
of whose members sets an endianness of its own). -/
theorem field_endian_resolution (p p2 : ProtocolE)
    (hroot : p.endian = "little") (h : Protocol.ValidateE p = .ok p2) :
    collectFieldsP p2 = (collectFieldsP p).map (resolveEndian "little") ∧
    (∀ f : FieldE, f.endianAttr = none →
      (resolveEndian "little" f).endianAttr = some "little") ∧
    (∀ f : FieldE, f.endianAttr = some "big" →
      (resolveEndian "little" f).endianAttr = some "big") := by
  refine ⟨?_, ?_, ?_⟩
  · rw [Protocol.ValidateE] at h
    cases hm : MessageList.ValidateE (some p.endian) p.msgs with
    | error e => rw [hm] at h; cases h
    | ok msgs2 =>
      rw [hm] at h
      cases hd : p.desc with
      | false => rw [hd] at h; exact absurd h (by simp)
      | true =>
        rw [hd] at h
        have h2 : ProtocolE.mk p.endian true msgs2 = p2 := Except.ok.inj h
        rw [← h2, collectFieldsP, collectFieldsP]
        rw [hroot] at hm
        exact msgs_validate_resolves "little" p.msgs msgs2 hm
  · intro f hf
    simp [resolveEndian, hf]
  · intro f hf
    simp [resolveEndian, hf]

/-- Concrete run of the C7 theorem: a little-endian protocol with one
message holding one field without an endian attribute and one with
`endian=big`; after validation the first resolves to `little`, the second
stays `big`; and `Protocol.Start` vets the root's `endian=little`
attribute to `little`. -/
theorem field_endian_resolution_witness :
    collectFieldsP ⟨"little", true,
        [MessageE.mk true [⟨some "little", true⟩, ⟨some "big", true⟩] []]⟩ =
      (collectFieldsP ⟨"little", true,
        [MessageE.mk true [⟨none, true⟩, ⟨some "big", true⟩] []]⟩).map
        (resolveEndian "little") ∧
    Protocol.startEndian (some "little") = .ok "little" := by
  have hval : Protocol.ValidateE
      ⟨"little", true, [MessageE.mk true [⟨none, true⟩, ⟨some "big", true⟩] []]⟩ =
      .ok ⟨"little", true,
        [MessageE.mk true [⟨some "little", true⟩, ⟨some "big", true⟩] []]⟩ := by
    rfl
  have h := field_endian_resolution
    ⟨"little", true, [MessageE.mk true [⟨none, true⟩, ⟨some "big", true⟩] []]⟩
    ⟨"little", true, [MessageE.mk true [⟨some "little", true⟩, ⟨some "big", true⟩] []]⟩
    rfl hval
  exact ⟨h.1, rfl⟩

end Transmute
